import Mathlib

/-!
Verification development for the avif-convertor extension core
(source: src/extension.ts).  The TypeScript source is shallowly embedded:
pure functions become Lean functions, filesystem and subprocess effects
become explicit environment parameters or event sequences, and the
concurrent worker pool becomes a small-step transition relation.
Paths are modelled as lists of components of an absolute POSIX path.
-/

namespace Avif

/-- Path is the component list of an absolute POSIX path; the empty list
models the empty string setting (falsy in the source). -/
abbrev Path := List String

def pathToString (p : Path) : String := "/" ++ String.intercalate "/" p

/-- Index of the last dot character of a file name, if any
(helper for the Node path.extname embedding). -/
def lastDotIdx (cs : List Char) : Option Nat :=
  match cs.reverse.findIdx? (fun c => c = '.') with
  | none => none
  | some k => some (cs.length - 1 - k)

/-- Node path.extname on a base name: the substring from the last dot,
except that a name with no dot, a name whose only-relevant dot is its
first character, and the special name ".." have no extension. -/
def extname (s : String) : String :=
  match lastDotIdx s.data with
  | none => ""
  | some 0 => ""
  | some i => if s = ".." then "" else String.mk (s.data.drop i)

/-- Node path.basename(p, ext): strips a nonempty extension suffix when
the base name is strictly longer than the extension. -/
def basenameMinusExt (b ext : String) : String :=
  if ext.length ≠ 0 ∧ ext.length < b.length ∧ ext.data.isSuffixOf b.data then
    String.mk (b.data.take (b.length - ext.length))
  else b

/-- Last component of a path (Node path.basename). -/
def lastName (p : Path) : String := p.getLastD ""

/-- Directory part of a path (Node path.dirname). -/
def dirname (p : Path) : Path := p.dropLast

/-- SUPPORTED_EXTS from extension.ts line 7. -/
def SUPPORTED_EXTS : List String := [".png", ".jpg", ".jpeg", ".gif", ".apng"]

/-- ASCII lower-casing of JS toLowerCase, written character by character
so concrete instances evaluate. -/
def toLowerStr (s : String) : String := String.mk (s.data.map Char.toLower)

/-- isSupportedFile from extension.ts lines 175-177:
the extension of the base name, lower-cased, is in the supported set. -/
def isSupportedFile (p : Path) : Bool :=
  SUPPORTED_EXTS.contains (toLowerStr (extname (lastName p)))

/-- AvifSettings from extension.ts lines 9-18; outDir is modelled as a
component list ([] for the empty-string default). -/
structure AvifSettings where
  crf : Int
  speed : Int
  lossless : Bool
  recursive : Bool
  outDir : Path
  overwrite : Bool
  jobs : Int
  autoInstallOnMac : Bool
deriving DecidableEq, Repr

/-- Homebrew and system locations appended by getEnhancedPath
(extension.ts lines 44-49). -/
def extraPaths : List String :=
  ["/opt/homebrew/bin", "/usr/local/bin", "/usr/bin", "/bin"]

/-- Generic append-if-absent loop: the body of both the getEnhancedPath
augmentation loop (lines 51-53) and, with an empty accumulator, the
insertion order of a JS Set used for deduplication (line 321). -/
def addAll {α : Type} [DecidableEq α] (acc : List α) (l : List α) : List α :=
  l.foldl (fun ps p => if ps.contains p then ps else ps ++ [p]) acc

/-- Component list built by getEnhancedPath (extension.ts lines 42-54)
before the final join; the argument stands for process.env.PATH or "". -/
def getEnhancedPathParts (existing : String) : List String :=
  addAll (existing.splitOn ":") extraPaths

/-- getEnhancedPath from extension.ts lines 42-55. -/
def getEnhancedPath (existing : String) : String :=
  String.intercalate ":" (getEnhancedPathParts existing)

/-- JS Number.prototype.toFixed(1) for a nonnegative exact rational:
round to the nearest tenth, ties up, and print one decimal digit.
The source computes with binary doubles; the model uses exact rationals. -/
def toFixed1 (q : ℚ) : String :=
  let n : ℤ := ⌊q * 10 + 1 / 2⌋
  toString (n / 10) ++ "." ++ toString (n % 10)

/-- JS toFixed(0) for a nonnegative exact rational. -/
def toFixed0 (q : ℚ) : String := toString (⌊q + 1 / 2⌋ : ℤ)

/-- calcReduction from extension.ts lines 213-217. -/
def calcReduction (before after : Nat) : String :=
  if before ≤ 0 then ""
  else
    let pct : ℚ := (((before : ℚ) - (after : ℚ)) / (before : ℚ)) * 100
    (if 0 ≤ pct then "-" else "+") ++ toFixed1 |pct| ++ "%"

/-- Unit labels of humanBytes (extension.ts line 203). -/
def byteUnits : List String := ["B", "KB", "MB", "GB"]

/-- Division loop of humanBytes (extension.ts lines 205-209). -/
def humanLoop (v : ℚ) (i : Nat) : ℚ × Nat :=
  if h : 1024 ≤ v ∧ i < 3 then humanLoop (v / 1024) (i + 1) else (v, i)
termination_by 3 - i
decreasing_by omega

/-- humanBytes from extension.ts lines 202-211, with doubles modelled as
exact rationals. -/
def humanBytes (bytes : Nat) : String :=
  let p := humanLoop (bytes : ℚ) 0
  (if p.2 = 0 then toFixed0 p.1 else toFixed1 p.1) ++ " " ++ byteUnits.getD p.2 ""

/-- One step of absolute-path normalization: ".." pops the previous
component (clamped at the root), "." is dropped, any other component is
kept. -/
def normStep (acc : Path) (c : String) : Path :=
  if c = ".." then acc.dropLast else if c = "." then acc else acc ++ [c]

/-- Normalization of an absolute component list, as Node path.join applies
after concatenation. -/
def normAbs (l : Path) : Path := l.foldl normStep []

/-- Predicate for component lists free of the special "." and ".."
components (the shape discovery produces for real file paths). -/
def noSpecial (p : Path) : Prop := ∀ c ∈ p, c ≠ "." ∧ c ≠ ".."

instance (p : Path) : Decidable (noSpecial p) := by
  unfold noSpecial; infer_instance

/-- Node path.join on an absolute base and a relative tail: concatenate,
then normalize. -/
def pathJoin (a b : Path) : Path := normAbs (a ++ b)

/-- Length of the common component prefix of two paths. -/
def commonLen : Path → Path → Nat
  | a :: as, b :: bs => if a = b then 1 + commonLen as bs else 0
  | _, _ => 0

/-- Node path.relative on two absolute component lists: one ".." for each
component of the source past the common prefix, then the remainder of the
destination. -/
def pathRelative (src dst : Path) : Path :=
  let c := commonLen src dst
  List.replicate (src.length - c) ".." ++ dst.drop c

/-- Output base name computed by resolveOutPath line 224: the input base
name with its extension stripped, plus ".avif". -/
def newBaseName (inputFile : Path) : String :=
  basenameMinusExt (lastName inputFile) (extname (lastName inputFile)) ++ ".avif"

/-- resolveOutPath from extension.ts lines 219-234; first component of the
result is outFile, second is outDirUsed. -/
def resolveOutPath (inputFile : Path) (outDir : Path) (preserveRootDir : Option Path) :
    Path × Path :=
  let baseName := newBaseName inputFile
  if outDir = [] then
    (pathJoin (dirname inputFile) [baseName], dirname inputFile)
  else
    match preserveRootDir with
    | none => (pathJoin outDir [baseName], outDir)
    | some r =>
        let rel := pathRelative r (dirname inputFile)
        let targetDir := pathJoin outDir rel
        (pathJoin targetDir [baseName], targetDir)

/-- Encoder argument list built by convertOne lines 253-258, written as the
same sequence of pushes. -/
def buildArgs (s : AvifSettings) (inputFile outFile : String) : List String :=
  let args : List String := []
  let args := if s.lossless then args ++ ["--lossless"] else args
  let args := args ++ ["--min", toString s.crf, "--max", toString s.crf]
  let args := args ++ ["--speed", toString s.speed]
  let args := if 0 < s.jobs then args ++ ["-j", toString s.jobs] else args
  args ++ [inputFile, outFile]

/-- Outcome statuses of convertOne (extension.ts line 242). -/
inductive ConvStatus
  | ok
  | skipped
  | error
  | cancelled
deriving DecidableEq, Repr

/-- Result of one avifenc invocation as resolved by the subprocess
helpers. -/
structure SpawnResult where
  exitCode : Int
  stdout : String
  stderr : String
deriving DecidableEq, Repr

/-- Effects convertOne observes from the outside world, one field per
awaited operation: pathExists on the resolved output (line 245), the two
fs.stat size reads (lines 251 and 282, none = stat rejected), the resolved
avifenc result (line 268), and the cancellation-token state at the check
on line 270. -/
structure ConvertEnv where
  outExists : Path → Bool
  statSizeBefore : Path → Option Nat
  statSizeAfter : Path → Option Nat
  res : SpawnResult
  cancelAtCheck : Bool

/-- Result of convertOne together with the ghost observation of whether
the encoder subprocess was spawned, and with which arguments. -/
structure ConvertResult where
  status : ConvStatus
  message : String
  invoked : Bool
  args : List String
deriving DecidableEq, Repr

/-- convertOne from extension.ts lines 236-291.  The mkdir on line 249
affects only the filesystem, never the returned value, and is not part of
the result; the fs.stat catch handlers map a failed stat to size 0 exactly
as the source does. -/
def convertOne (inputFile : Path) (s : AvifSettings) (preserveRootDir : Option Path)
    (env : ConvertEnv) : ConvertResult :=
  let r := resolveOutPath inputFile s.outDir preserveRootDir
  let outFile := r.1
  if s.overwrite = false ∧ env.outExists outFile = true then
    { status := .skipped
      message := "Skip (exists): " ++ pathToString outFile
      invoked := false
      args := [] }
  else
    let before := (env.statSizeBefore inputFile).getD 0
    let args := buildArgs s (pathToString inputFile) (pathToString outFile)
    if env.cancelAtCheck then
      { status := .cancelled, message := "Cancelled: " ++ pathToString inputFile
        invoked := true, args := args }
    else if env.res.exitCode ≠ 0 then
      { status := .error, message := "Failed: " ++ pathToString inputFile
        invoked := true, args := args }
    else
      let after := (env.statSizeAfter outFile).getD 0
      { status := .ok
        message := lastName inputFile ++ " → " ++ lastName outFile ++ "  ("
          ++ humanBytes before ++ " → " ++ humanBytes after ++ " "
          ++ calcReduction before after ++ ")"
        invoked := true
        args := args }

/-- Events a child process can deliver to the handlers registered by
spawnAndCapture and spawnAvifenc: stdout data, stderr data, the
launch-failure event, and the close event with its possibly null code. -/
inductive PEvent
  | out (s : String)
  | errData (s : String)
  | launchErr (s : String)
  | close (c : Option Int)
deriving DecidableEq, Repr

/-- State of the promise executor shared by spawnAndCapture (lines 62-94)
and spawnAvifenc (lines 107-128): the resolved value if any, how many
times resolve was called, and the accumulated streams. -/
structure SpawnState where
  resolved : Option SpawnResult
  resolveCount : Nat
  stdout : String
  stderr : String
deriving DecidableEq, Repr

/-- The done helper (lines 64-68 and 109-113): resolve at most once,
guarded by the resolved flag. -/
def doneStep (st : SpawnState) (code : Int) : SpawnState :=
  if st.resolved.isSome then st
  else
    { st with
      resolved := some ⟨code, st.stdout, st.stderr⟩
      resolveCount := st.resolveCount + 1 }

/-- One registered handler firing (lines 79-93 and 121-127): data events
append to the streams, the error event appends the error text to stderr
and resolves with code 127, the close event resolves with the exit code,
null mapped to 0. -/
def handleEvent (st : SpawnState) : PEvent → SpawnState
  | .out s => { st with stdout := st.stdout ++ s }
  | .errData s => { st with stderr := st.stderr ++ s }
  | .launchErr m => doneStep { st with stderr := st.stderr ++ m } 127
  | .close c => doneStep st (c.getD 0)

/-- Run of the promise executor over the sequence of events the child
process fires. -/
def runSpawn (events : List PEvent) : SpawnState :=
  events.foldl handleEvent ⟨none, 0, "", ""⟩

/-- spawnAndCapture from extension.ts lines 57-95, as a function of the
command, arguments and the event sequence of the spawned child; the
command and arguments select the child and do not alter the promise
machinery. -/
def spawnAndCapture (command : String) (args : List String) (events : List PEvent) :
    SpawnState :=
  let _ := command
  let _ := args
  runSpawn events

/-- spawnAvifenc from extension.ts lines 100-132: identical promise
machinery with the fixed avifenc command. -/
def spawnAvifenc (args : List String) (events : List PEvent) : SpawnState :=
  let _ := args
  runSpawn events

/-- Terminal events are the ones that call done. -/
def isTerminal : PEvent → Bool
  | .launchErr _ => true
  | .close _ => true
  | _ => false

/-- Stdout text accumulated by the data handlers over a list of events. -/
def outAcc : List PEvent → String
  | [] => ""
  | .out s :: rest => s ++ outAcc rest
  | _ :: rest => outAcc rest

/-- Stderr text accumulated by the data handlers over a list of events. -/
def errAcc : List PEvent → String
  | [] => ""
  | .errData s :: rest => s ++ errAcc rest
  | _ :: rest => errAcc rest

/-- Directory listing as returned by fs.readdir with file types, written
as one inductive so the traversal below is structurally recursive: a cons
cell per entry (file, directory with its own listing, or an entry that is
neither a file nor a directory, such as a symlink, which the source loop
skips). -/
inductive FsListing
  | nil
  | consFile (name : String) (rest : FsListing)
  | consDir (name : String) (sub : FsListing) (rest : FsListing)
  | consSkip (name : String) (rest : FsListing)

/-- collectFilesFromDir from extension.ts lines 179-191; the directory
contents are the readdir listing of the tree node. -/
def collectFilesFromDir (dirPath : Path) (entries : FsListing) (recursive : Bool) :
    List Path :=
  match entries with
  | .nil => []
  | .consDir name sub rest =>
      (if recursive then collectFilesFromDir (dirPath ++ [name]) sub true else [])
        ++ collectFilesFromDir dirPath rest recursive
  | .consFile name rest =>
      (if isSupportedFile (dirPath ++ [name]) then [dirPath ++ [name]] else [])
        ++ collectFilesFromDir dirPath rest recursive
  | .consSkip _ rest => collectFilesFromDir dirPath rest recursive

/-- One selected entry of expandTargets, tagged with the outcome of the
fs.stat call on line 300: statFail for a rejected stat, dirT for a
directory with its readdir tree, fileT for a plain file, otherT for a
stat that is neither file nor directory. -/
inductive Target
  | statFail (p : Path)
  | dirT (p : Path) (entries : FsListing)
  | fileT (p : Path)
  | otherT (p : Path)

def Target.isStatFail : Target → Bool
  | .statFail _ => true
  | _ => false

/-- JS Map from absolute path to preserve-root (null modelled as none),
as an insertion-ordered association list. -/
abbrev RootsMap := List (Path × Option Path)

/-- JS Map.prototype.set: update in place when the key exists, else append. -/
def mapSet (m : RootsMap) (k : Path) (v : Option Path) : RootsMap :=
  if m.any (fun e => e.1 = k) then
    m.map (fun e => if e.1 = k then (k, v) else e)
  else m ++ [(k, v)]

/-- JS Map.prototype.get: value of the entry with the key, if present. -/
def mapGet (m : RootsMap) (k : Path) : Option (Option Path) :=
  (m.find? (fun e => e.1 = k)).map (fun e => e.2)

/-- The expression rootsForPreserve.get(f) ?? null from line 323: both a
missing key and a stored null give null. -/
def joinGet (m : RootsMap) (k : Path) : Option Path :=
  match mapGet m k with
  | some v => v
  | none => none

/-- Main loop of expandTargets (lines 298-318) with the files array and
the rootsForPreserve map as accumulators. -/
def expandLoop (recursive : Bool) :
    List Target → List Path → RootsMap → List Path × RootsMap
  | [], files, m => (files, m)
  | .statFail _ :: ts, files, m => expandLoop recursive ts files m
  | .otherT _ :: ts, files, m => expandLoop recursive ts files m
  | .dirT p es :: ts, files, m =>
      let dirFiles := collectFilesFromDir p es recursive
      expandLoop recursive ts (files ++ dirFiles)
        (dirFiles.foldl (fun acc f => mapSet acc f (some p)) m)
  | .fileT p :: ts, files, m =>
      if isSupportedFile p then
        expandLoop recursive ts (files ++ [p]) (mapSet m p none)
      else expandLoop recursive ts files m

/-- First-occurrence deduplication, the order produced by
Array.from(new Set(files)) on line 321. -/
def dedupFirst (l : List Path) : List Path := addAll [] l

/-- Specification-side characterization of first-occurrence
deduplication: every element keeps the position of its first occurrence
and all later duplicates are dropped.  Stated independently of the
Set-based dedupFirst above so the two can be proved to agree. -/
def firstOccurrences : List Path → List Path
  | [] => []
  | x :: xs => x :: firstOccurrences (xs.filter (fun y => !(y == x)))
termination_by l => l.length
decreasing_by
  simp only [List.length_cons]
  exact Nat.lt_succ_of_le (List.length_filter_le _ _)

/-- Result of expandTargets: the deduplicated file list and the rebuilt
preserve-root map. -/
structure Expansion where
  files : List Path
  roots : RootsMap
deriving DecidableEq, Repr

/-- expandTargets from extension.ts lines 293-325; the recursive setting
read from configuration is the explicit second argument. -/
def expandTargets (sel : List Target) (recursive : Bool) : Expansion :=
  let fm := expandLoop recursive sel [] []
  let unique := dedupFirst fm.1
  { files := unique
    roots := unique.map (fun f => (f, joinGet fm.2 f)) }

/-- Discovery events of expandTargets in push order: each discovered file
with the preserve-root recorded for that occurrence. -/
def discoveredPairs (recursive : Bool) : List Target → List (Path × Option Path)
  | [] => []
  | .statFail _ :: ts => discoveredPairs recursive ts
  | .otherT _ :: ts => discoveredPairs recursive ts
  | .dirT p es :: ts =>
      (collectFilesFromDir p es recursive).map (fun f => (f, some p))
        ++ discoveredPairs recursive ts
  | .fileT p :: ts =>
      (if isSupportedFile p then [(p, (none : Option Path))] else [])
        ++ discoveredPairs recursive ts

/-- Status of one pool worker from the loop on lines 373-393: at the top
of the while loop, awaiting convertOne for a claimed job, or returned. -/
inductive WStatus
  | top
  | running
  | done
deriving DecidableEq, Repr

/-- Shared state of the worker pool (lines 360-396) plus the ghost fields
claimed (history of claimed indices in claim order) and cancelCount
(number of jobs that resolved cancelled). -/
structure PoolState where
  idx : Nat
  okCount : Nat
  skipCount : Nat
  errCount : Nat
  cancelled : Bool
  token : Bool
  workers : List WStatus
  claimed : List Nat
  cancelCount : Nat
deriving DecidableEq, Repr

/-- Initial pool state: cursor and counters zero, w workers at the loop
top (line 395 starts w copies of work()). -/
def poolInit (w : Nat) : PoolState :=
  ⟨0, 0, 0, 0, false, false, List.replicate w .top, [], 0⟩

/-- Worker count started on line 395: min(concurrency, N) with
concurrency = max(1, min(cpu, 4)) from lines 358-359. -/
def numWorkers (cpu n : Nat) : Nat := min (max 1 (min cpu 4)) n

/-- Interleaving semantics of the pool for n jobs.  JavaScript runs each
region between awaits atomically, so the token check plus cursor
fetch-and-increment (lines 375-377) is one step, and each result
recording (lines 384-391) is one step; convertOne results are
nondeterministic except that a cancelled result requires the token
(convertOne line 270 maps a requested token to status cancelled). -/
inductive PoolStep (n : Nat) : PoolState → PoolState → Prop
  | cancel (s : PoolState) :
      s.token = false →
      PoolStep n s { s with token := true }
  | claimStop (s : PoolState) (l r : List WStatus) :
      s.workers = l ++ .top :: r →
      s.token = true →
      PoolStep n s { s with workers := l ++ .done :: r }
  | claimYes (s : PoolState) (l r : List WStatus) :
      s.workers = l ++ .top :: r →
      s.token = false →
      s.idx < n →
      PoolStep n s
        { s with
          idx := s.idx + 1
          workers := l ++ .running :: r
          claimed := s.claimed ++ [s.idx] }
  | claimNo (s : PoolState) (l r : List WStatus) :
      s.workers = l ++ .top :: r →
      s.token = false →
      n ≤ s.idx →
      PoolStep n s { s with idx := s.idx + 1, workers := l ++ .done :: r }
  | finishOk (s : PoolState) (l r : List WStatus) :
      s.workers = l ++ .running :: r →
      PoolStep n s
        { s with okCount := s.okCount + 1, workers := l ++ .top :: r }
  | finishSkip (s : PoolState) (l r : List WStatus) :
      s.workers = l ++ .running :: r →
      PoolStep n s
        { s with skipCount := s.skipCount + 1, workers := l ++ .top :: r }
  | finishErr (s : PoolState) (l r : List WStatus) :
      s.workers = l ++ .running :: r →
      PoolStep n s
        { s with errCount := s.errCount + 1, workers := l ++ .top :: r }
  | finishCancel (s : PoolState) (l r : List WStatus) :
      s.workers = l ++ .running :: r →
      s.token = true →
      PoolStep n s
        { s with
          cancelled := true
          cancelCount := s.cancelCount + 1
          workers := l ++ .done :: r }

/-- Pool states reachable from the initial state with w workers. -/
def PoolReachable (n w : Nat) (s : PoolState) : Prop :=
  Relation.ReflTransGen (PoolStep n) (poolInit w) s

/-- All workers have returned. -/
def allDone (s : PoolState) : Prop := ∀ w ∈ s.workers, w = WStatus.done

instance (s : PoolState) : Decidable (allDone s) := by
  unfold allDone; infer_instance

/-- Inductive invariant of the worker pool: worker count is fixed, the
claim history is exactly the range of claimed indices, every claim is
recorded in a counter, as a cancelled job, or still in flight, cancelled
results presuppose a cancellation request, and all workers can only have
stopped with the token clear after the cursor passed the job count. -/
def PoolInv (n w : Nat) (s : PoolState) : Prop :=
  s.workers.length = w ∧
  s.claimed = List.range (min s.idx n) ∧
  s.okCount + s.skipCount + s.errCount + s.cancelCount
      + s.workers.count WStatus.running = min s.idx n ∧
  (s.token = false → s.cancelCount = 0) ∧
  (s.token = false → (∀ x ∈ s.workers, x = WStatus.done) → s.workers ≠ [] → n ≤ s.idx)

/-- Append-if-absent loops only append: the result extends the
accumulator with a duplicate-free suffix of fresh elements, and every
element of the second list appears in the result. -/
theorem addAll_spec {α : Type} [DecidableEq α] (l acc : List α) :
    ∃ s, addAll acc l = acc ++ s ∧ s.Nodup ∧
      (∀ x ∈ s, x ∈ l ∧ x ∉ acc) ∧ (∀ e ∈ l, e ∈ addAll acc l) := by
  induction l generalizing acc with
  | nil => exact ⟨[], by simp [addAll]⟩
  | cons p rest ih =>
      by_cases hp : p ∈ acc
      · have hstep : addAll acc (p :: rest) = addAll acc rest := by
          simp [addAll, List.foldl_cons, hp]
        obtain ⟨s, hs, hnd, hmem, hall⟩ := ih acc
        refine ⟨s, by rw [hstep]; exact hs, hnd, ?_, ?_⟩
        · exact fun x hx => ⟨List.mem_cons_of_mem _ (hmem x hx).1, (hmem x hx).2⟩
        · intro e he
          rw [hstep]
          rcases List.mem_cons.mp he with rfl | he2
          · rw [hs]; exact List.mem_append.mpr (Or.inl hp)
          · exact hall e he2
      · have hstep : addAll acc (p :: rest) = addAll (acc ++ [p]) rest := by
          simp [addAll, List.foldl_cons, hp]
        obtain ⟨s, hs, hnd, hmem, hall⟩ := ih (acc ++ [p])
        refine ⟨p :: s, ?_, ?_, ?_, ?_⟩
        · rw [hstep, hs]; simp
        · refine List.nodup_cons.mpr ⟨fun hps => ?_, hnd⟩
          exact (hmem p hps).2 (List.mem_append.mpr (Or.inr (List.mem_singleton.mpr rfl)))
        · intro x hx
          rcases List.mem_cons.mp hx with rfl | hx2
          · exact ⟨List.mem_cons_self _ _, hp⟩
          · refine ⟨List.mem_cons_of_mem _ (hmem x hx2).1, fun hxa => ?_⟩
            exact (hmem x hx2).2 (List.mem_append.mpr (Or.inl hxa))
        · intro e he
          rw [hstep, hs]
          rcases List.mem_cons.mp he with rfl | he2
          · simp
          · have := hall e he2
            rw [hs] at this
            simpa using this

/-- C9.  The augmented PATH keeps every original entry in its original
order (the original split is a prefix of the augmented split), contains
each package-manager location, and the appended suffix neither duplicates
an existing entry nor repeats itself. -/
theorem getEnhancedPath_augments (existing : String) :
    ∃ suffix,
      getEnhancedPathParts existing = existing.splitOn ":" ++ suffix ∧
      suffix.Nodup ∧
      (∀ x ∈ suffix, x ∈ extraPaths ∧ x ∉ existing.splitOn ":") ∧
      (∀ e ∈ extraPaths, e ∈ getEnhancedPathParts existing) ∧
      getEnhancedPath existing = String.intercalate ":" (getEnhancedPathParts existing) := by
  obtain ⟨s, hs, hnd, hmem, hall⟩ := addAll_spec extraPaths (existing.splitOn ":")
  exact ⟨s, hs, hnd, hmem, hall, rfl⟩

/-- C7 helper: for a positive before-size the reduction string carries
the sign determined by comparing the sizes and the exact percentage
rounded to one decimal. -/
theorem calcReduction_shape (b a : Nat) (hb : 0 < b) :
    calcReduction b a
      = (if a ≤ b then "-" else "+")
        ++ toFixed1 |(((b : ℚ) - (a : ℚ)) / (b : ℚ)) * 100| ++ "%" := by
  have hbq : (0 : ℚ) < (b : ℚ) := by exact_mod_cast hb
  have hiff : (0 ≤ (((b : ℚ) - (a : ℚ)) / (b : ℚ)) * 100) ↔ a ≤ b := by
    rw [mul_nonneg_iff_of_pos_right (by norm_num : (0 : ℚ) < 100)]
    rw [le_div_iff₀ hbq, zero_mul, sub_nonneg]
    exact_mod_cast Iff.rfl
  simp only [calcReduction]
  rw [if_neg (by omega : ¬ b ≤ 0)]
  by_cases hab : a ≤ b
  · rw [if_pos (hiff.mpr hab), if_pos hab]
  · rw [if_neg (fun h => hab (hiff.mp h)), if_neg hab]

/-- C7.  The size-reduction string realizes (before - after)/before x 100
with a minus sign when the output did not grow and a plus sign when it
grew, gives -60.0 percent and +20.0 percent on the documented examples,
and is empty when the before-size is 0 (the value unreadable sizes are
mapped to). -/
theorem calcReduction_correct :
    calcReduction 1000 400 = "-60.0%" ∧
    calcReduction 1000 1200 = "+20.0%" ∧
    (∀ after, calcReduction 0 after = "") ∧
    (∀ b a : Nat, 0 < b →
      calcReduction b a
        = (if a ≤ b then "-" else "+")
          ++ toFixed1 |(((b : ℚ) - (a : ℚ)) / (b : ℚ)) * 100| ++ "%") := by
  refine ⟨?_, ?_, fun after => rfl, fun b a hb => calcReduction_shape b a hb⟩
  · simp only [calcReduction, toFixed1]
    norm_num
    decide
  · simp only [calcReduction, toFixed1]
    norm_num
    decide

/-- C7 witness: the shape clause applied at before 500, after 250. -/
theorem calcReduction_correct_witness :
    calcReduction 500 250
      = (if 250 ≤ 500 then "-" else "+")
        ++ toFixed1 |(((500 : ℚ) - (250 : ℚ)) / (500 : ℚ)) * 100| ++ "%" :=
  calcReduction_correct.2.2.2 500 250 (by omega)

/-- C1 counterexample: with the lossless flag set, the built argument
list contains the lossless switch and the min/max quality pair at once,
so the claimed either/or construction is false on the code. -/
theorem buildArgs_lossless_counterexample :
    "--lossless" ∈ buildArgs ⟨20, 6, true, true, [], false, 0, true⟩ "a.png" "a.avif" ∧
    "--min" ∈ buildArgs ⟨20, 6, true, true, [], false, 0, true⟩ "a.png" "a.avif" ∧
    buildArgs ⟨20, 6, true, true, [], false, 0, true⟩ "a.png" "a.avif"
      = ["--lossless", "--min", "20", "--max", "20", "--speed", "6",
         "a.png", "a.avif"] := by
  refine ⟨?_, ?_, ?_⟩ <;> decide

/-- C1 amended: the argument list is the lossless switch when the flag is
set, then always (regardless of the lossless flag) the min and max
quality flags both at the configured quality, then the speed flag, then
the jobs flag when the configured count is positive, and finally the
input and output paths; in particular a lossless configuration carries
both the lossless switch and the min/max pair. -/
theorem buildArgs_layout (s : AvifSettings) (i o : String) :
    buildArgs s i o
      = (if s.lossless then ["--lossless"] else [])
        ++ ["--min", toString s.crf, "--max", toString s.crf,
            "--speed", toString s.speed]
        ++ (if 0 < s.jobs then ["-j", toString s.jobs] else [])
        ++ [i, o] ∧
    (s.lossless = true →
      "--lossless" ∈ buildArgs s i o ∧ "--min" ∈ buildArgs s i o ∧
        "--max" ∈ buildArgs s i o) := by
  constructor
  · unfold buildArgs
    by_cases hl : s.lossless <;> by_cases hj : 0 < s.jobs <;> simp [hl, hj]
  · intro hl
    unfold buildArgs
    by_cases hj : 0 < s.jobs <;> simp [hl, hj]

/-- C1 witness: the layout applied to a lossless configuration shows both
switches present. -/
theorem buildArgs_layout_witness :
    "--lossless" ∈ buildArgs ⟨20, 6, true, true, [], false, 0, true⟩ "in.png" "out.avif" :=
  ((buildArgs_layout ⟨20, 6, true, true, [], false, 0, true⟩ "in.png" "out.avif").2 rfl).1

/-- Once the promise is resolved its value never changes, whatever later
events fire. -/
theorem handleEvent_keeps_resolved (st : SpawnState) (e : PEvent) (v : SpawnResult)
    (h : st.resolved = some v) : (handleEvent st e).resolved = some v := by
  cases e with
  | out s => simpa using h
  | errData s => simpa using h
  | launchErr m =>
      simp only [handleEvent, doneStep]
      rw [if_pos (by simp [h])]
      simpa using h
  | close c =>
      simp only [handleEvent, doneStep]
      rw [if_pos (by simp [h])]
      exact h

/-- Fold version of the resolved-value preservation. -/
theorem foldl_keeps_resolved (events : List PEvent) (st : SpawnState) (v : SpawnResult)
    (h : st.resolved = some v) : (events.foldl handleEvent st).resolved = some v := by
  induction events generalizing st with
  | nil => simpa using h
  | cons e rest ih => exact ih _ (handleEvent_keeps_resolved st e v h)

/-- The resolve-call counter always matches whether the promise is
resolved: the resolved flag admits exactly one resolution. -/
theorem foldl_count_flag (events : List PEvent) (st : SpawnState)
    (h : st.resolveCount = if st.resolved.isSome then 1 else 0) :
    (events.foldl handleEvent st).resolveCount
      = if (events.foldl handleEvent st).resolved.isSome then 1 else 0 := by
  induction events generalizing st with
  | nil => simpa using h
  | cons e rest ih =>
      refine ih _ ?_
      cases e with
      | out s => simpa using h
      | errData s => simpa using h
      | launchErr m =>
          by_cases hr : st.resolved.isSome = true
          · simp [handleEvent, doneStep, hr, h]
          · rw [Bool.not_eq_true] at hr
            simp [handleEvent, doneStep, hr] at h ⊢
            omega
      | close c =>
          by_cases hr : st.resolved.isSome = true
          · simp [handleEvent, doneStep, hr, h]
          · rw [Bool.not_eq_true] at hr
            simp [handleEvent, doneStep, hr] at h ⊢
            omega

/-- A done call always leaves the promise resolved. -/
theorem doneStep_isSome (st : SpawnState) (c : Int) :
    (doneStep st c).resolved.isSome = true := by
  unfold doneStep
  by_cases hr : st.resolved.isSome
  · rw [if_pos hr]; exact hr
  · rw [if_neg hr]; simp

/-- A terminal event anywhere in the sequence leaves the promise
resolved. -/
theorem foldl_terminal_isSome (events : List PEvent) (st : SpawnState)
    (h : ∃ e ∈ events, isTerminal e = true) :
    (events.foldl handleEvent st).resolved.isSome = true := by
  induction events generalizing st with
  | nil => simp at h
  | cons e rest ih =>
      by_cases ht : isTerminal e = true
      · have hsome : (handleEvent st e).resolved.isSome = true := by
          cases e with
          | out s => simp [isTerminal] at ht
          | errData s => simp [isTerminal] at ht
          | launchErr m => exact doneStep_isSome _ _
          | close c => exact doneStep_isSome _ _
        obtain ⟨v, hv⟩ := Option.isSome_iff_exists.mp hsome
        rw [List.foldl_cons]
        rw [foldl_keeps_resolved rest _ v hv]
        rfl
      · rcases h with ⟨e2, he2, hterm⟩
        rcases List.mem_cons.mp he2 with rfl | hrest
        · exact absurd hterm ht
        · exact ih _ ⟨e2, hrest, hterm⟩

/-- C10.  The subprocess-helper promises settle at most once, always by
resolution; whenever the child fires a terminal event (close or error,
or both) they settle exactly once. -/
theorem spawn_settles_once (command : String) (args : List String) (events : List PEvent) :
    (spawnAndCapture command args events).resolveCount ≤ 1 ∧
    (spawnAvifenc args events).resolveCount ≤ 1 ∧
    ((∃ e ∈ events, isTerminal e = true) →
      (spawnAndCapture command args events).resolved.isSome = true ∧
      (spawnAndCapture command args events).resolveCount = 1 ∧
      (spawnAvifenc args events).resolved.isSome = true ∧
      (spawnAvifenc args events).resolveCount = 1) := by
  have hcnt := foldl_count_flag events ⟨none, 0, "", ""⟩ (by simp)
  have hle : (runSpawn events).resolveCount ≤ 1 := by
    unfold runSpawn
    rw [hcnt]
    split <;> omega
  refine ⟨hle, hle, fun hterm => ?_⟩
  have hsome := foldl_terminal_isSome events ⟨none, 0, "", ""⟩ hterm
  have hone : (runSpawn events).resolveCount = 1 := by
    unfold runSpawn
    rw [hcnt]
    unfold runSpawn at hsome
    rw [if_pos hsome]
  exact ⟨hsome, hone, hsome, hone⟩

/-- C10 witness: a child that fires both the error and the close event
still resolves exactly once. -/
theorem spawn_settles_once_witness :
    (spawnAndCapture "avifenc" ["--version"]
        [PEvent.launchErr "spawn avifenc ENOENT", PEvent.close (some 0)]).resolveCount = 1 :=
  ((spawn_settles_once "avifenc" ["--version"]
      [PEvent.launchErr "spawn avifenc ENOENT", PEvent.close (some 0)]).2.2
    ⟨PEvent.launchErr "spawn avifenc ENOENT", by decide, rfl⟩).2.1

/-- Folding only non-terminal events accumulates the streams and leaves
the promise pending. -/
theorem foldl_nonterminal (pre : List PEvent) (st : SpawnState)
    (h : ∀ e ∈ pre, isTerminal e = false) (hres : st.resolved = none) :
    pre.foldl handleEvent st
      = ⟨none, st.resolveCount, st.stdout ++ outAcc pre, st.stderr ++ errAcc pre⟩ := by
  induction pre generalizing st with
  | nil =>
      cases st with
      | mk r c o e =>
          simp only [List.foldl_nil, outAcc, errAcc]
          simp at hres
          simp [hres]
  | cons ev rest ih =>
      cases ev with
      | out s =>
          rw [List.foldl_cons]
          simp only [handleEvent]
          rw [ih { st with stdout := st.stdout ++ s }
            (fun e he => h e (List.mem_cons_of_mem _ he)) hres]
          simp [outAcc, errAcc, String.append_assoc]
      | errData s =>
          rw [List.foldl_cons]
          simp only [handleEvent]
          rw [ih { st with stderr := st.stderr ++ s }
            (fun e he => h e (List.mem_cons_of_mem _ he)) hres]
          simp [outAcc, errAcc, String.append_assoc]
      | launchErr m =>
          have := h (PEvent.launchErr m) (List.mem_cons_self _ _)
          simp [isTerminal] at this
      | close c =>
          have := h (PEvent.close c) (List.mem_cons_self _ _)
          simp [isTerminal] at this

/-- C8.  When the first terminal event of the child is the launch-failure
event, both helpers resolve (rather than throw) with the reserved exit
code 127 and the launch error text appended to the stderr captured so
far; later events change nothing. -/
theorem spawn_launch_error_resolves (command : String) (args : List String)
    (pre : List PEvent) (msg : String) (rest : List PEvent)
    (h : ∀ e ∈ pre, isTerminal e = false) :
    (spawnAndCapture command args (pre ++ PEvent.launchErr msg :: rest)).resolved
        = some ⟨127, outAcc pre, errAcc pre ++ msg⟩ ∧
    (spawnAvifenc args (pre ++ PEvent.launchErr msg :: rest)).resolved
        = some ⟨127, outAcc pre, errAcc pre ++ msg⟩ := by
  have key : (runSpawn (pre ++ PEvent.launchErr msg :: rest)).resolved
      = some ⟨127, outAcc pre, errAcc pre ++ msg⟩ := by
    unfold runSpawn
    rw [List.foldl_append]
    rw [foldl_nonterminal pre ⟨none, 0, "", ""⟩ h rfl]
    rw [List.foldl_cons]
    have hmid : handleEvent
        ⟨none, 0, "" ++ outAcc pre, "" ++ errAcc pre⟩ (PEvent.launchErr msg)
        = ⟨some ⟨127, "" ++ outAcc pre, ("" ++ errAcc pre) ++ msg⟩, 1,
            "" ++ outAcc pre, ("" ++ errAcc pre) ++ msg⟩ := by
      simp [handleEvent, doneStep]
    rw [hmid]
    rw [foldl_keeps_resolved rest _ _ rfl]
    simp
  exact ⟨key, key⟩

/-- C8 witness: stderr data followed by a launch failure and a late close
event resolves with 127 and the error text appended. -/
theorem spawn_launch_error_witness :
    (spawnAndCapture "avifenc" ["--version"]
        ([PEvent.errData "x"] ++ PEvent.launchErr "Error: spawn avifenc ENOENT"
          :: [PEvent.close (some 0)])).resolved
      = some ⟨127, "", "xError: spawn avifenc ENOENT"⟩ := by
  have h := (spawn_launch_error_resolves "avifenc" ["--version"]
    [PEvent.errData "x"] "Error: spawn avifenc ENOENT" [PEvent.close (some 0)]
    (by decide)).1
  rw [h]
  decide

/-- C6.  With overwrite disabled and the resolved output file already
present, convertOne terminates skipped, its message names the existing
path, and the encoder is never invoked. -/
theorem convertOne_skips (inputFile : Path) (s : AvifSettings) (pr : Option Path)
    (env : ConvertEnv) (hov : s.overwrite = false)
    (hex : env.outExists (resolveOutPath inputFile s.outDir pr).1 = true) :
    convertOne inputFile s pr env
      = ⟨ConvStatus.skipped,
          "Skip (exists): " ++ pathToString (resolveOutPath inputFile s.outDir pr).1,
          false, []⟩ := by
  simp only [convertOne]
  rw [if_pos ⟨hov, hex⟩]

/-- C6 witness: a concrete pre-existing output is skipped without
invoking the encoder. -/
theorem convertOne_skips_witness :
    convertOne ["pics", "a.png"] ⟨20, 6, false, true, [], false, 0, true⟩ none
        ⟨fun _ => true, fun _ => none, fun _ => none, ⟨0, "", ""⟩, false⟩
      = ⟨ConvStatus.skipped,
          "Skip (exists): "
            ++ pathToString (resolveOutPath ["pics", "a.png"] [] none).1,
          false, []⟩ :=
  convertOne_skips ["pics", "a.png"] ⟨20, 6, false, true, [], false, 0, true⟩ none
    ⟨fun _ => true, fun _ => none, fun _ => none, ⟨0, "", ""⟩, false⟩ rfl rfl

/-- The discovery loop ignores entries whose stat call rejected: running
it on the selection with those entries removed gives the same result. -/
theorem expandLoop_filter (recursive : Bool) (sel : List Target) :
    ∀ files m, expandLoop recursive (sel.filter fun t => !t.isStatFail) files m
      = expandLoop recursive sel files m := by
  induction sel with
  | nil => intro files m; rfl
  | cons t ts ih =>
      intro files m
      cases t with
      | statFail p =>
          have hfil : List.filter (fun t => !t.isStatFail) (Target.statFail p :: ts)
              = List.filter (fun t => !t.isStatFail) ts := rfl
          rw [hfil]
          simp only [expandLoop]
          exact ih files m
      | dirT p es =>
          have hfil : List.filter (fun t => !t.isStatFail) (Target.dirT p es :: ts)
              = Target.dirT p es :: List.filter (fun t => !t.isStatFail) ts := rfl
          rw [hfil]
          simp only [expandLoop]
          exact ih _ _
      | otherT p =>
          have hfil : List.filter (fun t => !t.isStatFail) (Target.otherT p :: ts)
              = Target.otherT p :: List.filter (fun t => !t.isStatFail) ts := rfl
          rw [hfil]
          simp only [expandLoop]
          exact ih files m
      | fileT p =>
          have hfil : List.filter (fun t => !t.isStatFail) (Target.fileT p :: ts)
              = Target.fileT p :: List.filter (fun t => !t.isStatFail) ts := rfl
          rw [hfil]
          simp only [expandLoop]
          by_cases hs : isSupportedFile p = true
          · rw [if_pos hs, if_pos hs]; exact ih _ _
          · rw [if_neg hs, if_neg hs]; exact ih _ _

/-- C2 amended: a selected entry that cannot be stat'ed is silently
dropped, never surfaced as a discovery error; discovery behaves exactly
as if the unreadable entries had not been selected, and the remaining
entries still become jobs. -/
theorem expandTargets_drops_statFail (sel : List Target) (recursive : Bool) :
    expandTargets sel recursive
      = expandTargets (sel.filter fun t => !t.isStatFail) recursive := by
  unfold expandTargets
  rw [expandLoop_filter]

/-- C2 counterexample: one unreadable entry plus one readable file; the
batch is not aborted, the readable file is converted to a job, and the
unreadable entry vanishes from the job list. -/
theorem expandTargets_statFail_counterexample :
    (expandTargets [Target.statFail ["a", "b.png"], Target.fileT ["c", "d.png"]]
        true).files = [["c", "d.png"]] ∧
    ["a", "b.png"] ∉
      (expandTargets [Target.statFail ["a", "b.png"], Target.fileT ["c", "d.png"]]
        true).files := by
  constructor <;> decide

/-- The in-place map update leaves lookups of other keys unchanged. -/
theorem find_map_keyUpdate_ne (m : RootsMap) (k j : Path) (v : Option Path)
    (hne : j ≠ k) :
    (m.map fun e => if e.1 = k then (k, v) else e).find? (fun e => e.1 = j)
      = m.find? (fun e => e.1 = j) := by
  induction m with
  | nil => rfl
  | cons a rest ih =>
      by_cases hak : a.1 = k
      · rw [List.map_cons, if_pos hak]
        rw [List.find?_cons_of_neg _ (by simp [Ne.symm hne])]
        rw [List.find?_cons_of_neg _ (by simp [hak ▸ (Ne.symm hne)])]
        exact ih
      · rw [List.map_cons, if_neg hak]
        by_cases haj : a.1 = j
        · rw [List.find?_cons_of_pos _ (by simp [haj]),
            List.find?_cons_of_pos _ (by simp [haj])]
        · rw [List.find?_cons_of_neg _ (by simp [haj]),
            List.find?_cons_of_neg _ (by simp [haj])]
          exact ih

/-- When the key is present, the in-place update makes its first entry
carry the new value. -/
theorem find_map_keyUpdate_self (m : RootsMap) (k : Path) (v : Option Path)
    (hmem : m.any (fun e => e.1 = k) = true) :
    (m.map fun e => if e.1 = k then (k, v) else e).find? (fun e => e.1 = k)
      = some (k, v) := by
  induction m with
  | nil => simp at hmem
  | cons a rest ih =>
      by_cases hak : a.1 = k
      · rw [List.map_cons, if_pos hak, List.find?_cons_of_pos _ (by simp)]
      · rw [List.map_cons, if_neg hak, List.find?_cons_of_neg _ (by simp [hak])]
        apply ih
        simpa [hak] using hmem

/-- Map.set then Map.get on the same key yields the new value. -/
theorem mapGet_mapSet_self (m : RootsMap) (k : Path) (v : Option Path) :
    mapGet (mapSet m k v) k = some v := by
  unfold mapSet mapGet
  by_cases hmem : m.any (fun e => e.1 = k) = true
  · rw [if_pos hmem, find_map_keyUpdate_self m k v hmem]
    rfl
  · rw [if_neg hmem, List.find?_append]
    have hnone : m.find? (fun e => e.1 = k) = none := by
      rw [List.find?_eq_none]
      intro x hx hpx
      exact hmem (List.any_eq_true.mpr ⟨x, hx, hpx⟩)
    rw [hnone]
    simp

/-- Map.set on one key does not change Map.get on another. -/
theorem mapGet_mapSet_ne (m : RootsMap) (k j : Path) (v : Option Path)
    (hne : j ≠ k) : mapGet (mapSet m k v) j = mapGet m j := by
  unfold mapSet mapGet
  by_cases hmem : m.any (fun e => e.1 = k) = true
  · rw [if_pos hmem, find_map_keyUpdate_ne m k j v hne]
  · rw [if_neg hmem, List.find?_append]
    have h1 : [(k, v)].find? (fun e => e.1 = j) = none := by simp [Ne.symm hne]
    rw [h1]
    simp

/-- Folding Map.set over a pair list realizes last-write-wins: a lookup
sees the value of the last pair with that key, or falls back to the
original map. -/
theorem mapGet_foldl_mapSet (pairs : List (Path × Option Path)) (m : RootsMap)
    (k : Path) :
    mapGet (pairs.foldl (fun acc e => mapSet acc e.1 e.2) m) k
      = ((pairs.reverse.find? (fun e => e.1 = k)).map Prod.snd).or (mapGet m k) := by
  induction pairs generalizing m with
  | nil => simp
  | cons e rest ih =>
      rw [List.foldl_cons, ih, List.reverse_cons, List.find?_append]
      cases hfind : rest.reverse.find? (fun x => x.1 = k) with
      | some x => simp
      | none =>
          simp only [Option.map_none, Option.none_or]
          by_cases hek : e.1 = k
          · have h1 : [e].find? (fun x => x.1 = k) = some e := by simp [hek]
            rw [h1, hek, mapGet_mapSet_self]
            rfl
          · have h1 : [e].find? (fun x => x.1 = k) = none := by simp [hek]
            rw [h1, mapGet_mapSet_ne m e.1 k e.2 (fun h => hek h.symm)]

/-- The deduplicated file list is duplicate free. -/
theorem dedupFirst_nodup (l : List Path) : (dedupFirst l).Nodup := by
  obtain ⟨s, hs, hnd, _, _⟩ := addAll_spec l ([] : List Path)
  unfold dedupFirst
  rw [hs]
  simpa using hnd

/-- Deduplication preserves membership. -/
theorem mem_dedupFirst (l : List Path) (x : Path) : x ∈ dedupFirst l ↔ x ∈ l := by
  obtain ⟨s, hs, _, hmem, hall⟩ := addAll_spec l ([] : List Path)
  unfold dedupFirst
  rw [hs]
  constructor
  · intro hx
    simp only [List.nil_append] at hx
    exact (hmem x hx).1
  · intro hx
    have := hall x hx
    unfold addAll at this hs
    rw [hs] at this
    exact this

/-- List.contains, written as a decided membership. -/
theorem contains_eq (l : List Path) (a : Path) : l.contains a = decide (a ∈ l) := by
  show List.elem a l = decide (a ∈ l)
  exact List.elem_eq_mem a l

/-- The append-if-absent loop computes the first-occurrence
deduplication of the elements not already in the accumulator. -/
theorem addAll_firstOccurrences (l : List Path) :
    ∀ acc : List Path, addAll acc l
      = acc ++ firstOccurrences (l.filter (fun y => !(acc.contains y))) := by
  induction l with
  | nil => intro acc; simp [addAll, firstOccurrences]
  | cons x xs ih =>
      intro acc
      by_cases hx : x ∈ acc
      · have hstep : addAll acc (x :: xs) = addAll acc xs := by
          simp [addAll, List.foldl_cons, hx]
        have hfil : (x :: xs).filter (fun y => !(acc.contains y))
            = xs.filter (fun y => !(acc.contains y)) := by
          rw [List.filter_cons]
          simp [contains_eq, hx]
        rw [hstep, hfil, ih acc]
      · have hstep : addAll acc (x :: xs) = addAll (acc ++ [x]) xs := by
          simp [addAll, List.foldl_cons, hx]
        have hfil : (x :: xs).filter (fun y => !(acc.contains y))
            = x :: xs.filter (fun y => !(acc.contains y)) := by
          rw [List.filter_cons]
          simp [contains_eq, hx]
        rw [hstep, ih (acc ++ [x]), hfil, firstOccurrences, List.filter_filter]
        have hpred : xs.filter (fun y => !((acc ++ [x]).contains y))
            = xs.filter (fun a => !(a == x) && !(acc.contains a)) := by
          apply List.filter_congr
          intro y _
          rw [contains_eq, contains_eq]
          by_cases h1 : y = x
          · subst h1
            simp
          · by_cases h2 : y ∈ acc
            · simp [h1, h2]
            · simp [h1, h2]
        rw [hpred]
        simp [List.append_assoc]

/-- The Set-based deduplication keeps exactly the first occurrence of
every element, in place. -/
theorem dedupFirst_eq_firstOccurrences (l : List Path) :
    dedupFirst l = firstOccurrences l := by
  unfold dedupFirst
  rw [addAll_firstOccurrences l []]
  have h : l.filter (fun y => !(([] : List Path).contains y)) = l := by
    have hp : (fun y : Path => !(([] : List Path).contains y)) = fun _ => true := by
      funext y
      rfl
    rw [hp, List.filter_true]
  rw [h]
  simp

/-- Lookup in a map rebuilt from a key list with a value function. -/
theorem mapGet_keyMap (u : List Path) (g : Path → Option Path) (k : Path)
    (hk : k ∈ u) : mapGet (u.map fun f => (f, g f)) k = some (g k) := by
  induction u with
  | nil => simp at hk
  | cons a rest ih =>
      rcases List.mem_cons.mp hk with rfl | hk2
      · unfold mapGet
        rw [List.map_cons, List.find?_cons_of_pos _ (by simp)]
        rfl
      · by_cases hak : a = k
        · subst hak
          unfold mapGet
          rw [List.map_cons, List.find?_cons_of_pos _ (by simp)]
          rfl
        · unfold mapGet at ih ⊢
          rw [List.map_cons, List.find?_cons_of_neg _ (by simp [hak])]
          exact ih hk2

/-- The discovery loop produces exactly the discovered pairs: the file
array is the accumulated first components and the map is the Map.set
fold over the pairs in discovery order. -/
theorem expandLoop_pairs (recursive : Bool) (sel : List Target) :
    ∀ files m, expandLoop recursive sel files m
      = (files ++ (discoveredPairs recursive sel).map Prod.fst,
         (discoveredPairs recursive sel).foldl (fun acc e => mapSet acc e.1 e.2) m) := by
  induction sel with
  | nil => intro files m; simp [expandLoop, discoveredPairs]
  | cons t ts ih =>
      intro files m
      cases t with
      | statFail p => simp [expandLoop, discoveredPairs, ih]
      | otherT p => simp [expandLoop, discoveredPairs, ih]
      | dirT p es =>
          simp only [expandLoop, discoveredPairs]
          rw [ih]
          simp [List.map_append, List.map_map, List.foldl_append, List.foldl_map,
            List.append_assoc, Function.comp_def]
      | fileT p =>
          by_cases hs : isSupportedFile p <;>
            simp [expandLoop, discoveredPairs, hs, ih]

/-- C3 amended: every discovered file appears exactly once in the job
list, at the position of its first occurrence in discovery order (the
list is the first-occurrence deduplication of the discovered files), and
the preserve-root recorded for it is the one of the last occurrence in
selection order, not the first. -/
theorem expandTargets_unique_lastRoot (sel : List Target) (recursive : Bool) :
    (expandTargets sel recursive).files.Nodup ∧
    (expandTargets sel recursive).files
        = firstOccurrences ((discoveredPairs recursive sel).map Prod.fst) ∧
    (∀ f, f ∈ (expandTargets sel recursive).files ↔
        ∃ rt, (f, rt) ∈ discoveredPairs recursive sel) ∧
    (∀ f, f ∈ (expandTargets sel recursive).files →
        mapGet (expandTargets sel recursive).roots f
          = ((discoveredPairs recursive sel).reverse.find?
              (fun e => e.1 = f)).map Prod.snd) := by
  have hloop := expandLoop_pairs recursive sel [] []
  have hfiles : (expandTargets sel recursive).files
      = dedupFirst ((discoveredPairs recursive sel).map Prod.fst) := by
    unfold expandTargets
    rw [hloop]
    simp
  have hroots : (expandTargets sel recursive).roots
      = (dedupFirst ((discoveredPairs recursive sel).map Prod.fst)).map
          (fun f => (f, joinGet
            ((discoveredPairs recursive sel).foldl
              (fun acc e => mapSet acc e.1 e.2) []) f)) := by
    unfold expandTargets
    rw [hloop]
    simp
  have hmemiff : ∀ f, f ∈ (expandTargets sel recursive).files ↔
      ∃ rt, (f, rt) ∈ discoveredPairs recursive sel := by
    intro f
    rw [hfiles, mem_dedupFirst, List.mem_map]
    constructor
    · rintro ⟨e, he, rfl⟩
      exact ⟨e.2, he⟩
    · rintro ⟨rt, hrt⟩
      exact ⟨(f, rt), hrt, rfl⟩
  refine ⟨by rw [hfiles]; exact dedupFirst_nodup _,
    by rw [hfiles, dedupFirst_eq_firstOccurrences], hmemiff, ?_⟩
  intro f hf
  have hkey : mapGet (expandTargets sel recursive).roots f
      = some (joinGet
          ((discoveredPairs recursive sel).foldl
            (fun acc e => mapSet acc e.1 e.2) []) f) := by
    rw [hroots]
    apply mapGet_keyMap
    rw [hfiles] at hf
    exact hf
  obtain ⟨rt, hrt⟩ := (hmemiff f).mp hf
  have hsome : ((discoveredPairs recursive sel).reverse.find?
      (fun e => e.1 = f)).isSome = true := by
    rw [List.find?_isSome]
    exact ⟨(f, rt), List.mem_reverse.mpr hrt, by simp⟩
  obtain ⟨e, he⟩ := Option.isSome_iff_exists.mp hsome
  have hfold := mapGet_foldl_mapSet (discoveredPairs recursive sel) [] f
  rw [he] at hfold ⊢
  have hmget : mapGet ([] : RootsMap) f = none := rfl
  rw [hmget] at hfold
  simp only [Option.map_some, Option.or_none] at hfold
  rw [hkey]
  unfold joinGet
  rw [hfold]
  rfl

/-- C3 witness: a file reached through two selections keeps the root of
its last occurrence, as given by the amended theorem. -/
theorem expandTargets_unique_lastRoot_witness :
    mapGet
      (expandTargets
        [Target.fileT ["d", "a.png"], Target.dirT ["d"] (FsListing.consFile "a.png" FsListing.nil)]
        true).roots ["d", "a.png"]
      = some (some ["d"]) := by
  have h := (expandTargets_unique_lastRoot
    [Target.fileT ["d", "a.png"], Target.dirT ["d"] (FsListing.consFile "a.png" FsListing.nil)]
    true).2.2.2 ["d", "a.png"] (by decide)
  rw [h]
  decide

/-- C3 counterexample: the same file selected directly (null root) and
then via its directory ends up associated with the directory root of the
second occurrence; the claimed first-seen association (null) is false. -/
theorem expandTargets_firstRoot_counterexample :
    (expandTargets
        [Target.fileT ["d", "a.png"], Target.dirT ["d"] (FsListing.consFile "a.png" FsListing.nil)]
        true).files = [["d", "a.png"]] ∧
    (expandTargets
        [Target.fileT ["d", "a.png"], Target.dirT ["d"] (FsListing.consFile "a.png" FsListing.nil)]
        true).roots = [(["d", "a.png"], some ["d"])] ∧
    joinGet
        (expandTargets
          [Target.fileT ["d", "a.png"], Target.dirT ["d"] (FsListing.consFile "a.png" FsListing.nil)]
          true).roots ["d", "a.png"] ≠ none := by
  refine ⟨?_, ?_, ?_⟩ <;> decide

/-- Normalization is the identity past any accumulator when the input has
no special components. -/
theorem foldl_normStep_eq_append (l : Path) :
    ∀ acc, noSpecial l → l.foldl normStep acc = acc ++ l := by
  induction l with
  | nil => intro acc _; simp
  | cons c rest ih =>
      intro acc h
      have hc := h c (List.mem_cons_self _ _)
      rw [List.foldl_cons]
      have hstep : normStep acc c = acc ++ [c] := by
        unfold normStep
        rw [if_neg hc.2, if_neg hc.1]
      rw [hstep, ih (acc ++ [c]) (fun x hx => h x (List.mem_cons_of_mem _ hx))]
      simp

/-- Normalization fixes paths without special components. -/
theorem normAbs_eq_self (l : Path) (h : noSpecial l) : normAbs l = l := by
  unfold normAbs
  rw [foldl_normStep_eq_append l [] h]
  simp

/-- Normalization never outputs special components. -/
theorem foldl_normStep_noSpecial (l : Path) :
    ∀ acc, noSpecial acc → noSpecial (l.foldl normStep acc) := by
  induction l with
  | nil => intro acc h; simpa using h
  | cons c rest ih =>
      intro acc h
      rw [List.foldl_cons]
      apply ih
      unfold normStep
      by_cases h2 : c = ".."
      · rw [if_pos h2]
        exact fun x hx => h x ((List.dropLast_sublist _).subset hx)
      · rw [if_neg h2]
        by_cases h1 : c = "."
        · rw [if_pos h1]; exact h
        · rw [if_neg h1]
          intro x hx
          rcases List.mem_append.mp hx with hxa | hxc
          · exact h x hxa
          · rw [List.mem_singleton.mp hxc]; exact ⟨h1, h2⟩

/-- The output of normalization has no special components. -/
theorem normAbs_noSpecial (l : Path) : noSpecial (normAbs l) :=
  foldl_normStep_noSpecial l [] (by intro x hx; simp at hx)

/-- Joining special-free paths is plain concatenation. -/
theorem pathJoin_eq_append (a b : Path) (ha : noSpecial a) (hb : noSpecial b) :
    pathJoin a b = a ++ b := by
  unfold pathJoin
  apply normAbs_eq_self
  intro x hx
  rcases List.mem_append.mp hx with h | h
  · exact ha x h
  · exact hb x h

/-- Appending one ordinary component commutes with normalization. -/
theorem normAbs_append_single (l : Path) (c : String) (h1 : c ≠ ".") (h2 : c ≠ "..") :
    normAbs (l ++ [c]) = normAbs l ++ [c] := by
  unfold normAbs
  rw [List.foldl_append]
  simp only [List.foldl_cons, List.foldl_nil]
  unfold normStep
  rw [if_neg h2, if_neg h1]

/-- The generated output base name is at least five characters long. -/
theorem newBaseName_length (p : Path) : 5 ≤ (newBaseName p).length := by
  unfold newBaseName
  rw [String.length_append]
  have h : (".avif" : String).length = 5 := rfl
  omega

/-- The generated output base name is never a special component. -/
theorem newBaseName_ne_special (p : Path) :
    newBaseName p ≠ "." ∧ newBaseName p ≠ ".." := by
  have h5 := newBaseName_length p
  constructor
  · intro h
    rw [h] at h5
    exact absurd h5 (by decide)
  · intro h
    rw [h] at h5
    exact absurd h5 (by decide)

/-- A path shares its full length as common prefix with any extension of
itself. -/
theorem commonLen_self_append (l t : Path) : commonLen l (l ++ t) = l.length := by
  induction l with
  | nil => rfl
  | cons a as ih =>
      show commonLen (a :: as) (a :: (as ++ t)) = as.length + 1
      unfold commonLen
      rw [if_pos rfl, ih]
      omega

/-- Relative path from a prefix is the remaining suffix. -/
theorem pathRelative_append (l t : Path) : pathRelative l (l ++ t) = t := by
  unfold pathRelative
  rw [commonLen_self_append]
  simp [List.drop_left]

/-- A nonempty path splits into its directory and its base name. -/
theorem dirname_lastName (p : Path) (h : p ≠ []) : dirname p ++ [lastName p] = p := by
  induction p using List.reverseRecOn with
  | nil => exact absurd rfl h
  | append_singleton l a _ => simp [dirname, lastName]

/-- C5.  The path resolver replaces the extension of the base name with
the target extension, keeps the input directory when the output root is
empty, uses the output root directly when there is no preserve-root, and
with a preserve-root reproduces the input file's path relative to the
preserve-root below the output root, with only the extension changed. -/
theorem resolveOutPath_correct (inputFile outDir : Path) (pr : Option Path)
    (hin : noSpecial inputFile) (hout : noSpecial outDir) :
    (resolveOutPath inputFile outDir pr).1
        = (resolveOutPath inputFile outDir pr).2 ++ [newBaseName inputFile] ∧
    (outDir = [] → (resolveOutPath inputFile outDir pr).2 = dirname inputFile) ∧
    (outDir ≠ [] → pr = none → (resolveOutPath inputFile outDir pr).2 = outDir) ∧
    (∀ r, pr = some r → outDir ≠ [] → inputFile ≠ [] →
      (∃ t, r ++ t = dirname inputFile) →
      pathRelative outDir (resolveOutPath inputFile outDir pr).1
        = (pathRelative r inputFile).dropLast ++ [newBaseName inputFile]) := by
  have hb := newBaseName_ne_special inputFile
  have hbs : noSpecial [newBaseName inputFile] := by
    intro x hx
    rw [List.mem_singleton.mp hx]
    exact hb
  have hnd : noSpecial (dirname inputFile) := by
    intro c hc
    exact hin c ((List.dropLast_sublist _).subset hc)
  by_cases ho : outDir = []
  · have hres : resolveOutPath inputFile outDir pr
        = (pathJoin (dirname inputFile) [newBaseName inputFile], dirname inputFile) := by
      simp only [resolveOutPath]
      rw [if_pos ho]
    rw [hres]
    refine ⟨?_, fun _ => rfl, fun hne _ => absurd ho hne, fun r _ hne => absurd ho hne⟩
    exact pathJoin_eq_append _ _ hnd hbs
  · cases pr with
    | none =>
        have hres : resolveOutPath inputFile outDir none
            = (pathJoin outDir [newBaseName inputFile], outDir) := by
          simp only [resolveOutPath]
          rw [if_neg ho]
        rw [hres]
        refine ⟨?_, fun h => absurd h ho, fun _ _ => rfl, fun r hpr => Option.noConfusion hpr⟩
        exact pathJoin_eq_append _ _ hout hbs
    | some r0 =>
        have hres : resolveOutPath inputFile outDir (some r0)
            = (pathJoin (pathJoin outDir (pathRelative r0 (dirname inputFile)))
                [newBaseName inputFile],
               pathJoin outDir (pathRelative r0 (dirname inputFile))) := by
          simp only [resolveOutPath]
          rw [if_neg ho]
        rw [hres]
        have htd : noSpecial (pathJoin outDir (pathRelative r0 (dirname inputFile))) := by
          unfold pathJoin
          exact normAbs_noSpecial _
        have h1 : pathJoin (pathJoin outDir (pathRelative r0 (dirname inputFile)))
            [newBaseName inputFile]
            = pathJoin outDir (pathRelative r0 (dirname inputFile))
              ++ [newBaseName inputFile] :=
          pathJoin_eq_append _ _ htd hbs

        refine ⟨h1, fun h => absurd h ho, fun _ h => Option.noConfusion h, ?_⟩
        rintro r hpr _ hinne ⟨t, ht⟩
        obtain rfl : r0 = r := by injection hpr
        have hts : noSpecial t := by
          intro c hc
          apply hnd c
          rw [← ht]
          exact List.mem_append.mpr (Or.inr hc)
        have hrel : pathRelative r0 (dirname inputFile) = t := by
          rw [← ht]
          exact pathRelative_append r0 t
        have htd2 : pathJoin outDir (pathRelative r0 (dirname inputFile))
            = outDir ++ t := by
          rw [hrel]
          exact pathJoin_eq_append _ _ hout hts
        rw [h1, htd2]
        have hout2 : outDir ++ t ++ [newBaseName inputFile]
            = outDir ++ (t ++ [newBaseName inputFile]) := by
          simp [List.append_assoc]
        rw [hout2, pathRelative_append]
        have hinput : inputFile = r0 ++ (t ++ [lastName inputFile]) := by
          rw [← List.append_assoc, ht]
          exact (dirname_lastName inputFile hinne).symm
        rw [hinput, pathRelative_append, List.dropLast_concat]

/-- C5 witness: a file under a selected directory, with an output root
set, lands under the output root at its preserved relative path with the
extension changed. -/
theorem resolveOutPath_correct_witness :
    pathRelative ["out"]
        (resolveOutPath ["home", "u", "pics", "sub", "a.png"] ["out"]
          (some ["home", "u", "pics"])).1
      = ["sub", "a.avif"] := by
  have h := (resolveOutPath_correct ["home", "u", "pics", "sub", "a.png"] ["out"]
    (some ["home", "u", "pics"]) (by decide) (by decide)).2.2.2
    ["home", "u", "pics"] rfl (by decide) (by decide) ⟨["sub"], by decide⟩
  rw [h]
  decide

/-- Occurrence count in a list with one distinguished middle element. -/
theorem count_mid (l r : List WStatus) (a b : WStatus) :
    (l ++ b :: r).count a = l.count a + r.count a + (if b = a then 1 else 0) := by
  simp only [List.count_append, List.count_cons, beq_iff_eq]
  split <;> omega

/-- Count of running workers around a non-running middle element. -/
theorem count_mid_not (l r : List WStatus) (b : WStatus) (hb : b ≠ WStatus.running) :
    (l ++ b :: r).count WStatus.running
      = l.count WStatus.running + r.count WStatus.running := by
  rw [count_mid, if_neg hb]
  omega

/-- Count of running workers around a running middle element. -/
theorem count_mid_run (l r : List WStatus) :
    (l ++ WStatus.running :: r).count WStatus.running
      = l.count WStatus.running + r.count WStatus.running + 1 := by
  rw [count_mid, if_pos rfl]

/-- A boolean flag cannot be both set and clear. -/
theorem bool_tf {b : Bool} (h1 : b = true) (h2 : b = false) : False := by
  rw [h1] at h2
  exact Bool.noConfusion h2

/-- The initial pool state satisfies the invariant. -/
theorem poolInv_init (n w : Nat) : PoolInv n w (poolInit w) := by
  refine ⟨by simp [poolInit], by simp [poolInit], ?_, fun _ => rfl, ?_⟩
  · show 0 + 0 + 0 + 0 + (List.replicate w WStatus.top).count WStatus.running
        = min 0 n
    rw [List.count_replicate]
    simp
  · intro _ hdone hne
    exfalso
    have hw : 0 < w := by
      by_contra hw0
      have : w = 0 := by omega
      subst this
      exact hne rfl
    have hmem : WStatus.top ∈ (poolInit w).workers := by
      show WStatus.top ∈ List.replicate w WStatus.top
      exact List.mem_replicate.mpr ⟨by omega, rfl⟩
    have := hdone _ hmem
    cases this

/-- Every pool step preserves the invariant. -/
theorem poolInv_step (n w : Nat) (s s2 : PoolState)
    (hs : PoolInv n w s) (h : PoolStep n s s2) : PoolInv n w s2 := by
  obtain ⟨hA, hB, hC, hD, hE⟩ := hs
  cases h with
  | cancel htok =>
      refine ⟨hA, hB, hC, ?_, ?_⟩
      · intro hf
        simp at hf
      · intro hf
        simp at hf
  | claimStop l r hw htok =>
      refine ⟨?_, hB, ?_, hD, ?_⟩
      · show (l ++ WStatus.done :: r).length = w
        rw [hw] at hA
        simpa using hA
      · show s.okCount + s.skipCount + s.errCount + s.cancelCount
            + (l ++ WStatus.done :: r).count WStatus.running = min s.idx n
        rw [hw, count_mid_not l r WStatus.top (by decide)] at hC
        rw [count_mid_not l r WStatus.done (by decide)]
        omega
      · intro hf
        exact (bool_tf htok hf).elim
  | claimYes l r hw htok hidx =>
      have hmin1 : min s.idx n = s.idx := by omega
      have hmin2 : min (s.idx + 1) n = s.idx + 1 := by omega
      refine ⟨?_, ?_, ?_, fun _ => hD htok, ?_⟩
      · show (l ++ WStatus.running :: r).length = w
        rw [hw] at hA
        simpa using hA
      · show s.claimed ++ [s.idx] = List.range (min (s.idx + 1) n)
        rw [hmin2, List.range_succ, hB, hmin1]
      · show s.okCount + s.skipCount + s.errCount + s.cancelCount
            + (l ++ WStatus.running :: r).count WStatus.running = min (s.idx + 1) n
        rw [hw, count_mid_not l r WStatus.top (by decide)] at hC
        rw [count_mid_run l r]
        omega
      · intro _ hdone _
        exfalso
        have hmem : WStatus.running ∈ l ++ WStatus.running :: r :=
          List.mem_append.mpr (Or.inr (List.mem_cons_self _ _))
        exact nomatch hdone _ hmem
  | claimNo l r hw htok hidx =>
      have hmin1 : min s.idx n = n := by omega
      have hmin2 : min (s.idx + 1) n = n := by omega
      refine ⟨?_, ?_, ?_, fun _ => hD htok, ?_⟩
      · show (l ++ WStatus.done :: r).length = w
        rw [hw] at hA
        simpa using hA
      · show s.claimed = List.range (min (s.idx + 1) n)
        rw [hmin2, hB, hmin1]
      · show s.okCount + s.skipCount + s.errCount + s.cancelCount
            + (l ++ WStatus.done :: r).count WStatus.running = min (s.idx + 1) n
        rw [hw, count_mid_not l r WStatus.top (by decide)] at hC
        rw [count_mid_not l r WStatus.done (by decide)]
        omega
      · intro _ _ _
        show n ≤ s.idx + 1
        omega
  | finishOk l r hw =>
      refine ⟨?_, hB, ?_, fun htok => hD htok, ?_⟩
      · show (l ++ WStatus.top :: r).length = w
        rw [hw] at hA
        simpa using hA
      · show s.okCount + 1 + s.skipCount + s.errCount + s.cancelCount
            + (l ++ WStatus.top :: r).count WStatus.running = min s.idx n
        rw [hw, count_mid_run l r] at hC
        rw [count_mid_not l r WStatus.top (by decide)]
        omega
      · intro _ hdone _
        exfalso
        have hmem : WStatus.top ∈ l ++ WStatus.top :: r :=
          List.mem_append.mpr (Or.inr (List.mem_cons_self _ _))
        exact nomatch hdone _ hmem
  | finishSkip l r hw =>
      refine ⟨?_, hB, ?_, fun htok => hD htok, ?_⟩
      · show (l ++ WStatus.top :: r).length = w
        rw [hw] at hA
        simpa using hA
      · show s.okCount + (s.skipCount + 1) + s.errCount + s.cancelCount
            + (l ++ WStatus.top :: r).count WStatus.running = min s.idx n
        rw [hw, count_mid_run l r] at hC
        rw [count_mid_not l r WStatus.top (by decide)]
        omega
      · intro _ hdone _
        exfalso
        have hmem : WStatus.top ∈ l ++ WStatus.top :: r :=
          List.mem_append.mpr (Or.inr (List.mem_cons_self _ _))
        exact nomatch hdone _ hmem
  | finishErr l r hw =>
      refine ⟨?_, hB, ?_, fun htok => hD htok, ?_⟩
      · show (l ++ WStatus.top :: r).length = w
        rw [hw] at hA
        simpa using hA
      · show s.okCount + s.skipCount + (s.errCount + 1) + s.cancelCount
            + (l ++ WStatus.top :: r).count WStatus.running = min s.idx n
        rw [hw, count_mid_run l r] at hC
        rw [count_mid_not l r WStatus.top (by decide)]
        omega
      · intro _ hdone _
        exfalso
        have hmem : WStatus.top ∈ l ++ WStatus.top :: r :=
          List.mem_append.mpr (Or.inr (List.mem_cons_self _ _))
        exact nomatch hdone _ hmem
  | finishCancel l r hw htok =>
      refine ⟨?_, hB, ?_, ?_, ?_⟩
      · show (l ++ WStatus.done :: r).length = w
        rw [hw] at hA
        simpa using hA
      · show s.okCount + s.skipCount + s.errCount + (s.cancelCount + 1)
            + (l ++ WStatus.done :: r).count WStatus.running = min s.idx n
        rw [hw, count_mid_run l r] at hC
        rw [count_mid_not l r WStatus.done (by decide)]
        omega
      · intro hf
        exact (bool_tf htok hf).elim
      · intro hf
        exact (bool_tf htok hf).elim

/-- Every reachable pool state satisfies the invariant. -/
theorem poolInv_reachable (n w : Nat) (s : PoolState)
    (h : PoolReachable n w s) : PoolInv n w s := by
  induction h with
  | refl => exact poolInv_init n w
  | tail _ hstep ih => exact poolInv_step n w _ _ ih hstep

/-- C4 amended: in every completed run, each job index is claimed at most
once and in cursor order; the sum of the three outcome counters and the
number of cancelled-resolved jobs equals the number of claims; and when
no cancellation was requested the counters alone sum to the job count
with every index claimed (a cancelled-resolved job is flagged, not
counted, so with cancellation the counters sum to the claims minus the
cancelled jobs). -/
theorem pool_claims_and_counts (n cpu : Nat) (s : PoolState)
    (h : PoolReachable n (numWorkers cpu n) s) (hdone : allDone s) :
    s.claimed.Nodup ∧
    s.claimed = List.range (min s.idx n) ∧
    s.okCount + s.skipCount + s.errCount + s.cancelCount = s.claimed.length ∧
    (s.token = false → 0 < n →
      s.okCount + s.skipCount + s.errCount = n ∧ s.claimed = List.range n) := by
  obtain ⟨hA, hB, hC, hD, hE⟩ := poolInv_reachable n (numWorkers cpu n) s h
  have hrun : s.workers.count WStatus.running = 0 := by
    rw [List.count_eq_zero]
    intro hmem
    have := hdone _ hmem
    cases this
  have hlen : s.claimed.length = min s.idx n := by
    rw [hB, List.length_range]
  refine ⟨hB ▸ List.nodup_range _, hB, by omega, ?_⟩
  intro htok hn
  have hcz : s.cancelCount = 0 := hD htok
  have hwpos : 0 < numWorkers cpu n := by
    unfold numWorkers
    rw [lt_min_iff]
    exact ⟨lt_of_lt_of_le Nat.zero_lt_one (le_max_left 1 (min cpu 4)), hn⟩
  have hne : s.workers ≠ [] := by
    intro hnil
    rw [hnil] at hA
    simp at hA
    omega
  have hidx : n ≤ s.idx := hE htok hdone hne
  have hminn : min s.idx n = n := by omega
  constructor
  · omega
  · rw [hB, hminn]

/-- C4 counterexample: one job, one worker; the worker claims job 0, the
user cancels, the job resolves cancelled.  One job was claimed before
cancellation but the outcome counters sum to 0, so the claimed counter
equation is false on the code. -/
theorem pool_cancel_sum_counterexample :
    PoolReachable 1 (numWorkers 4 1)
      ⟨1, 0, 0, 0, true, true, [WStatus.done], [0], 1⟩ ∧
    allDone (⟨1, 0, 0, 0, true, true, [WStatus.done], [0], 1⟩ : PoolState) ∧
    (⟨1, 0, 0, 0, true, true, [WStatus.done], [0], 1⟩ : PoolState).cancelled = true ∧
    (⟨1, 0, 0, 0, true, true, [WStatus.done], [0], 1⟩ : PoolState).claimed.length = 1 ∧
    (⟨1, 0, 0, 0, true, true, [WStatus.done], [0], 1⟩ : PoolState).okCount
        + (⟨1, 0, 0, 0, true, true, [WStatus.done], [0], 1⟩ : PoolState).skipCount
        + (⟨1, 0, 0, 0, true, true, [WStatus.done], [0], 1⟩ : PoolState).errCount
      = 0 := by
  refine ⟨?_, by decide, rfl, rfl, rfl⟩
  have h0 : numWorkers 4 1 = 1 := rfl
  rw [h0]
  have st1 : PoolStep 1 (poolInit 1)
      ⟨1, 0, 0, 0, false, false, [WStatus.running], [0], 0⟩ :=
    PoolStep.claimYes (poolInit 1) [] [] rfl rfl (by decide)
  have st2 : PoolStep 1 ⟨1, 0, 0, 0, false, false, [WStatus.running], [0], 0⟩
      ⟨1, 0, 0, 0, false, true, [WStatus.running], [0], 0⟩ :=
    PoolStep.cancel ⟨1, 0, 0, 0, false, false, [WStatus.running], [0], 0⟩ rfl
  have st3 : PoolStep 1 ⟨1, 0, 0, 0, false, true, [WStatus.running], [0], 0⟩
      ⟨1, 0, 0, 0, true, true, [WStatus.done], [0], 1⟩ :=
    PoolStep.finishCancel ⟨1, 0, 0, 0, false, true, [WStatus.running], [0], 0⟩
      [] [] rfl rfl
  exact Relation.ReflTransGen.tail
    (Relation.ReflTransGen.tail
      (Relation.ReflTransGen.tail Relation.ReflTransGen.refl st1) st2) st3

/-- C4 witness: a completed uncancelled one-job run, through the amended
theorem, has counters summing to the job count and job 0 claimed once. -/
theorem pool_claims_and_counts_witness :
    (⟨2, 0, 1, 0, false, false, [WStatus.done], [0], 0⟩ : PoolState).okCount
        + (⟨2, 0, 1, 0, false, false, [WStatus.done], [0], 0⟩ : PoolState).skipCount
        + (⟨2, 0, 1, 0, false, false, [WStatus.done], [0], 0⟩ : PoolState).errCount
      = 1 ∧
    (⟨2, 0, 1, 0, false, false, [WStatus.done], [0], 0⟩ : PoolState).claimed
      = List.range 1 := by
  have h0 : numWorkers 4 1 = 1 := rfl
  have st1 : PoolStep 1 (poolInit 1)
      ⟨1, 0, 0, 0, false, false, [WStatus.running], [0], 0⟩ :=
    PoolStep.claimYes (poolInit 1) [] [] rfl rfl (by decide)
  have st2 : PoolStep 1 ⟨1, 0, 0, 0, false, false, [WStatus.running], [0], 0⟩
      ⟨1, 0, 1, 0, false, false, [WStatus.top], [0], 0⟩ :=
    PoolStep.finishSkip ⟨1, 0, 0, 0, false, false, [WStatus.running], [0], 0⟩
      [] [] rfl
  have st3 : PoolStep 1 ⟨1, 0, 1, 0, false, false, [WStatus.top], [0], 0⟩
      ⟨2, 0, 1, 0, false, false, [WStatus.done], [0], 0⟩ :=
    PoolStep.claimNo ⟨1, 0, 1, 0, false, false, [WStatus.top], [0], 0⟩
      [] [] rfl rfl (by decide)
  have hreach : PoolReachable 1 (numWorkers 4 1)
      ⟨2, 0, 1, 0, false, false, [WStatus.done], [0], 0⟩ := by
    rw [h0]
    exact Relation.ReflTransGen.tail
      (Relation.ReflTransGen.tail
        (Relation.ReflTransGen.tail Relation.ReflTransGen.refl st1) st2) st3
  exact (pool_claims_and_counts 1 4 _ hreach (by decide)).2.2.2 rfl (by omega)

end Avif
